import Mathlib

/-!
Verification of the byte-based chunking routine `chunk_text_simple`
from `app/embeddings.py`.

The Python source operates on the UTF-8 byte encoding of the input string:

```
def chunk_text_simple(text, max_bytes=1024, overlap_bytes=100):
    chunks = []
    text_bytes = text.encode('utf-8')
    start = 0
    while start < len(text_bytes):
        end = start + max_bytes
        chunk_bytes = text_bytes[start:end]
        try:
            chunk = chunk_bytes.decode('utf-8')
        except UnicodeDecodeError:
            while end > start:
                end -= 1
                try:
                    chunk = text_bytes[start:end].decode('utf-8')
                    break
                except UnicodeDecodeError:
                    continue
            else:
                start = end + 1
                continue
        chunks.append(chunk)
        start = end - overlap_bytes
    return chunks
```

The embedding models text as a list of Unicode scalar values (`List Nat`),
bytes as `List Nat`, Python integers as `Int`, Python slice semantics
(negative-index and out-of-range clamping) explicitly, and the CPython
UTF-8 codec (which rejects overlong forms, surrogates and values above
`0x10FFFF`) as an executable decoder.  The `while` loop is modelled with a
fuel parameter: `none` means the loop has not finished within the given
fuel.  Each loop iteration that appends a chunk is recorded as a
`ChunkRec` holding the values of the Python locals `start`, `end`,
`chunk_bytes` and `chunk` at the append site.
-/

/-- Clamp a Python slice index to `[0, len]`, with negative indices
counting from the end, exactly as CPython does for `bytes[a:b]`. -/
def clampIdx (len : Nat) (i : Int) : Nat :=
  (if i < 0 then (if i + len < 0 then 0 else i + len)
   else (if (len : Int) < i then (len : Int) else i)).toNat

/-- Python slice `l[a:b]` for integer indices `a`, `b`. -/
def pySlice (l : List Nat) (a b : Int) : List Nat :=
  (l.take (clampIdx l.length b)).drop (clampIdx l.length a)

/-- UTF-8 encoding of a single Unicode scalar value. -/
def utf8EncodeChar (c : Nat) : List Nat :=
  if c < 0x80 then [c]
  else if c < 0x800 then [0xC0 + c / 64, 0x80 + c % 64]
  else if c < 0x10000 then
    [0xE0 + c / 4096, 0x80 + (c / 64) % 64, 0x80 + c % 64]
  else
    [0xF0 + c / 262144, 0x80 + (c / 4096) % 64, 0x80 + (c / 64) % 64, 0x80 + c % 64]

/-- UTF-8 encoding of a sequence of Unicode scalar values
(Python `str.encode('utf-8')`). -/
def utf8Encode (s : List Nat) : List Nat :=
  (s.map utf8EncodeChar).flatten

/-- A Unicode scalar value: below `0x110000` and not a surrogate. -/
def ValidScalar (c : Nat) : Prop :=
  c < 0x110000 ∧ (c < 0xD800 ∨ 0xE000 ≤ c)

/-- Continuation byte test: `0x80 ≤ x < 0xC0`. -/
def isCont (x : Nat) : Bool := 0x80 ≤ x && x < 0xC0

/-- Constraint on the second byte of a 3-byte sequence, depending on the
lead byte, as checked by CPython (excludes overlong forms after `0xE0`
and surrogates after `0xED`). -/
def valid3 (b b2 : Nat) : Bool :=
  if b = 0xE0 then 0xA0 ≤ b2 && b2 < 0xC0
  else if b = 0xED then 0x80 ≤ b2 && b2 < 0xA0
  else isCont b2

/-- Constraint on the second byte of a 4-byte sequence, depending on the
lead byte, as checked by CPython (excludes overlong forms after `0xF0`
and values beyond `0x10FFFF` after `0xF4`). -/
def valid4 (b b2 : Nat) : Bool :=
  if b = 0xF0 then 0x90 ≤ b2 && b2 < 0xC0
  else if b = 0xF4 then 0x80 ≤ b2 && b2 < 0x90
  else isCont b2

/-- Parse one UTF-8 sequence whose lead byte is `b` and whose following
bytes start `rest`; return the decoded scalar and the unconsumed rest,
or `none` on a malformed or truncated sequence.  The branch structure
and the accepted byte ranges are those of the CPython UTF-8 codec. -/
def utf8DecodeChar (b : Nat) (rest : List Nat) : Option (Nat × List Nat) :=
  if b < 0x80 then some (b, rest)
  else if b < 0xC2 then none
  else if b < 0xE0 then
    match rest with
    | b2 :: rest2 =>
      if isCont b2 then some ((b - 0xC0) * 64 + (b2 - 0x80), rest2) else none
    | [] => none
  else if b < 0xF0 then
    match rest with
    | b2 :: b3 :: rest3 =>
      if valid3 b b2 && isCont b3 then
        some ((b - 0xE0) * 4096 + (b2 - 0x80) * 64 + (b3 - 0x80), rest3)
      else none
    | _ => none
  else if b < 0xF5 then
    match rest with
    | b2 :: b3 :: b4 :: rest4 =>
      if valid4 b b2 && isCont b3 && isCont b4 then
        some ((b - 0xF0) * 262144 + (b2 - 0x80) * 4096 + (b3 - 0x80) * 64 + (b4 - 0x80),
          rest4)
      else none
    | _ => none
  else none

/-- Decode a whole byte list, one UTF-8 sequence at a time.  The `Nat`
argument is a recursion bound; each parsed sequence consumes at least
the lead byte, so a bound of `bs.length` always suffices and the
`0, _ :: _` case is never reached from `utf8Decode`. -/
def utf8DecodeAux : Nat → List Nat → Option (List Nat)
  | _, [] => some []
  | 0, _ :: _ => none
  | n + 1, b :: rest =>
    match utf8DecodeChar b rest with
    | none => none
    | some (c, rest') => (utf8DecodeAux n rest').map (fun cs => c :: cs)

/-- Strict UTF-8 decoding (Python `bytes.decode('utf-8')`): `none` models
`UnicodeDecodeError`.  Overlong encodings, surrogates, truncated
sequences and lone continuation bytes are all rejected, as in CPython. -/
def utf8Decode (bs : List Nat) : Option (List Nat) :=
  utf8DecodeAux bs.length bs

/-- One appended chunk, recording the Python locals at the append site:
`s` is `start`, `e` is `end` (after any backoff), `bytes` is
`chunk_bytes` and `cps` is the decoded `chunk`. -/
structure ChunkRec where
  s : Int
  e : Int
  bytes : List Nat
  cps : List Nat
  deriving DecidableEq, Repr

/-- The inner backoff loop `while end > start: end -= 1; try ...` with the
remaining number of iterations made explicit; `none` models falling
through to the `else` (skip-chunk) branch. -/
def backoffAux (tb : List Nat) (s : Int) : Nat → Int → Option (Int × List Nat)
  | 0, _ => none
  | n + 1, e =>
    match utf8Decode (pySlice tb s (e - 1)) with
    | some c => some (e - 1, c)
    | none => backoffAux tb s n (e - 1)

/-- The backoff loop entered at `end = e`; it performs at most
`(e - s).toNat` decrements, exactly as the Python `while end > start`. -/
def backoff (tb : List Nat) (s e : Int) : Option (Int × List Nat) :=
  backoffAux tb s (e - s).toNat e

/-- The main `while start < len(text_bytes)` loop of `chunk_text_simple`,
with fuel bounding the number of iterations. -/
def chunkLoopRec (tb : List Nat) (maxB ov : Int) :
    Nat → Int → List ChunkRec → Option (List ChunkRec)
  | 0, s, acc => if s < (tb.length : Int) then none else some acc.reverse
  | fuel + 1, s, acc =>
    if s < (tb.length : Int) then
      match utf8Decode (pySlice tb s (s + maxB)) with
      | some c =>
        chunkLoopRec tb maxB ov fuel (s + maxB - ov)
          ({ s := s, e := s + maxB, bytes := pySlice tb s (s + maxB), cps := c } :: acc)
      | none =>
        match backoff tb s (s + maxB) with
        | some p =>
          chunkLoopRec tb maxB ov fuel (p.1 - ov)
            ({ s := s, e := p.1, bytes := pySlice tb s p.1, cps := p.2 } :: acc)
        | none => chunkLoopRec tb maxB ov fuel (s + maxB + 1) acc
    else some acc.reverse

/-- Run `chunk_text_simple` on a text given as Unicode scalar values,
returning the recorded chunk appends. -/
def chunkRuns (text : List Nat) (maxB ov : Int) (fuel : Nat) :
    Option (List ChunkRec) :=
  chunkLoopRec (utf8Encode text) maxB ov fuel 0 []

/-- Function `chunk_text_simple` itself: the list of decoded chunks
(`none` = the loop did not finish within `fuel` iterations). -/
def chunk_text_simple (text : List Nat) (maxB ov : Int) (fuel : Nat) :
    Option (List (List Nat)) :=
  (chunkRuns text maxB ov fuel).map (fun rs => rs.map ChunkRec.cps)

/-- The facts recorded by one loop iteration about the chunk it appended:
`bytes` is the slice `text_bytes[start:end]`, `cps` is its successful
decode, and `end` lies between `start` and `start + max_bytes`. -/
def RecOK (tb : List Nat) (maxB : Int) (r : ChunkRec) : Prop :=
  r.bytes = pySlice tb r.s r.e ∧ utf8Decode r.bytes = some r.cps ∧
    r.s ≤ r.e ∧ r.e ≤ r.s + maxB

/-- Consecutive chunk records are linked by the advance rule
`start_next = end - overlap_bytes`. -/
def Chained (ov : Int) : List ChunkRec → Prop
  | [] => True
  | [_] => True
  | r1 :: r2 :: rest => r2.s = r1.e - ov ∧ Chained ov (r2 :: rest)

/-- Reassemble chunks by keeping the first `d` bytes of every chunk except
the last, which is kept whole. -/
def chunkJoin (d : Nat) : List (List Nat) → List Nat
  | [] => []
  | [c] => c
  | c :: c2 :: rest => c.take d ++ chunkJoin d (c2 :: rest)

/-- Reassemble chunks by trimming the final `ov` bytes from every chunk
except the last, which is kept whole (the reading of spec property P1). -/
def prefixJoin (ov : Nat) : List (List Nat) → List Nat
  | [] => []
  | [c] => c
  | c :: c2 :: rest => c.take (c.length - ov) ++ prefixJoin ov (c2 :: rest)

/-- Position `p` is a UTF-8 sequence boundary of `tb`: the suffix from
`p` decodes. -/
def Utf8Boundary (tb : List Nat) (p : Nat) : Prop :=
  (utf8Decode (tb.drop p)).isSome = true

instance (tb : List Nat) (p : Nat) : Decidable (Utf8Boundary tb p) := by
  unfold Utf8Boundary
  infer_instance

instance (c : Nat) : Decidable (ValidScalar c) := by
  unfold ValidScalar
  infer_instance

/-- The linking rule claimed by the spec for consecutive chunks: the next
start equals one past the last included byte of the previous chunk minus
the overlap. -/
def ChainedEndOff (ov : Int) : List ChunkRec → Prop
  | [] => True
  | [_] => True
  | r1 :: r2 :: rest =>
    r2.s = r1.s + (r1.bytes.length : Int) - ov ∧ ChainedEndOff ov (r2 :: rest)

def chainedEndOffDec (ov : Int) : ∀ l : List ChunkRec, Decidable (ChainedEndOff ov l)
  | [] => isTrue trivial
  | [_] => isTrue trivial
  | _ :: r2 :: rest => @instDecidableAnd _ _ _ (chainedEndOffDec ov (r2 :: rest))

instance (ov : Int) (l : List ChunkRec) : Decidable (ChainedEndOff ov l) :=
  chainedEndOffDec ov l

example : chunk_text_simple [104, 101, 108, 108, 111] 5 2 10 =
    some [[104, 101, 108, 108, 111], [108, 111]] := by decide

/-! ### Basic facts about Python slicing -/

theorem clampIdx_le (len : Nat) (i : Int) : clampIdx len i ≤ len := by
  unfold clampIdx
  split <;> split <;> omega

theorem clampIdx_of_nonneg_le (len : Nat) (i : Int) (h0 : 0 ≤ i)
    (h1 : i ≤ len) : clampIdx len i = i.toNat := by
  unfold clampIdx
  split <;> split <;> omega

theorem clampIdx_of_ge (len : Nat) (i : Int) (h1 : (len : Int) ≤ i) :
    clampIdx len i = len := by
  unfold clampIdx
  split <;> split <;> omega

theorem pySlice_length (l : List Nat) (a b : Int) :
    (pySlice l a b).length = clampIdx l.length b - clampIdx l.length a := by
  have hb := clampIdx_le l.length b
  simp [pySlice]
  omega

theorem pySlice_self (l : List Nat) (a : Int) : pySlice l a a = [] := by
  have h := pySlice_length l a a
  exact List.eq_nil_of_length_eq_zero (by omega)

theorem pySlice_of_nonneg (l : List Nat) (a b : Int) (h0 : 0 ≤ a) (h1 : a ≤ b) :
    pySlice l a b = (l.drop a.toNat).take (b.toNat - a.toNat) := by
  unfold pySlice
  rcases le_or_lt a (l.length : Int) with ha | ha
  · rw [clampIdx_of_nonneg_le l.length a h0 ha, List.drop_take]
    rcases le_or_lt b (l.length : Int) with hb | hb
    · rw [clampIdx_of_nonneg_le l.length b (by omega) hb]
    · rw [clampIdx_of_ge l.length b (by omega)]
      rw [List.take_of_length_le (by simp), List.take_of_length_le (by simp; omega)]
  · rw [clampIdx_of_ge l.length a (by omega)]
    have h2 : l.drop a.toNat = [] := List.drop_eq_nil_of_le (by omega)
    rw [h2, List.take_nil, List.drop_eq_nil_of_le]
    simp only [List.length_take]
    exact min_le_of_left_le (clampIdx_le l.length b)

/-! ### Unfolding utf8Decode one character at a time -/

theorem utf8DecodeChar_length (b : Nat) (rest : List Nat) (c : Nat)
    (rest' : List Nat) (h : utf8DecodeChar b rest = some (c, rest')) :
    rest'.length ≤ rest.length := by
  unfold utf8DecodeChar at h
  repeat' split at h
  all_goals simp_all
  all_goals omega

theorem utf8DecodeAux_eq (n : Nat) :
    ∀ (m : Nat) (bs : List Nat), bs.length ≤ n → bs.length ≤ m →
      utf8DecodeAux n bs = utf8DecodeAux m bs := by
  induction n with
  | zero =>
    intro m bs hn _
    cases bs with
    | nil => cases m <;> rfl
    | cons b rest => simp at hn
  | succ k ih =>
    intro m bs hn hm
    cases bs with
    | nil => cases m <;> rfl
    | cons b rest =>
      obtain ⟨m', rfl⟩ : ∃ m', m = m' + 1 := ⟨m - 1, by simp at hm; omega⟩
      rw [utf8DecodeAux, utf8DecodeAux]
      cases hc : utf8DecodeChar b rest with
      | none => rfl
      | some p =>
        obtain ⟨c, rest'⟩ := p
        have hl := utf8DecodeChar_length b rest c rest' hc
        simp only
        rw [ih m' rest' (by simp at hn; omega) (by simp at hm; omega)]

theorem utf8Decode_cons (b : Nat) (rest : List Nat) :
    utf8Decode (b :: rest) =
      match utf8DecodeChar b rest with
      | none => none
      | some (c, rest') => (utf8Decode rest').map (fun cs => c :: cs) := by
  show utf8DecodeAux (rest.length + 1) (b :: rest) = _
  rw [utf8DecodeAux]
  cases hc : utf8DecodeChar b rest with
  | none => rfl
  | some p =>
    obtain ⟨c, rest'⟩ := p
    have hl := utf8DecodeChar_length b rest c rest' hc
    simp only
    rw [utf8DecodeAux_eq rest.length rest'.length rest' hl le_rfl]
    rfl

/-! ### ASCII byte lists -/

theorem utf8DecodeChar_ascii (b : Nat) (rest : List Nat) (hb : b < 0x80) :
    utf8DecodeChar b rest = some (b, rest) := by
  unfold utf8DecodeChar
  rw [if_pos hb]

theorem utf8Decode_ascii (bs : List Nat) (h : ∀ x ∈ bs, x < 0x80) :
    utf8Decode bs = some bs := by
  induction bs with
  | nil => rfl
  | cons b rest ih =>
    rw [utf8Decode_cons, utf8DecodeChar_ascii b rest (h b (List.mem_cons_self b rest))]
    show (utf8Decode rest).map (fun cs => b :: cs) = some (b :: rest)
    rw [ih (fun x hx => h x (List.mem_cons_of_mem _ hx))]
    rfl

theorem utf8Encode_cons (c : Nat) (rest : List Nat) :
    utf8Encode (c :: rest) = utf8EncodeChar c ++ utf8Encode rest := by
  simp [utf8Encode]

theorem utf8Encode_ascii (text : List Nat) (h : ∀ c ∈ text, c < 0x80) :
    utf8Encode text = text := by
  induction text with
  | nil => rfl
  | cons c rest ih =>
    rw [utf8Encode_cons, ih (fun x hx => h x (by simp [hx])), utf8EncodeChar,
      if_pos (h c (by simp))]
    rfl


/-! ### Decoding valid encodings -/

theorem utf8Decode_encodeChar (c : Nat) (hc : ValidScalar c) (X : List Nat) :
    utf8Decode (utf8EncodeChar c ++ X) = (utf8Decode X).map (fun cs => c :: cs) := by
  obtain ⟨hlt, hsur⟩ := hc
  rcases Nat.lt_or_ge c 0x80 with h1 | h1
  · have he : utf8EncodeChar c = [c] := by
      unfold utf8EncodeChar; rw [if_pos h1]
    rw [he, List.cons_append, List.nil_append, utf8Decode_cons,
      utf8DecodeChar_ascii c X h1]
  · rcases Nat.lt_or_ge c 0x800 with h2 | h2
    · have he : utf8EncodeChar c = [0xC0 + c / 64, 0x80 + c % 64] := by
        unfold utf8EncodeChar; rw [if_neg (by omega), if_pos h2]
      rw [he]
      show utf8Decode ((0xC0 + c / 64) :: ((0x80 + c % 64) :: X)) = _
      rw [utf8Decode_cons]
      have hd : utf8DecodeChar (0xC0 + c / 64) ((0x80 + c % 64) :: X) =
          some (c, X) := by
        unfold utf8DecodeChar
        rw [if_neg (by omega), if_neg (by omega), if_pos (by omega)]
        have hv : isCont (0x80 + c % 64) = true := by
          simp only [isCont, Bool.and_eq_true, decide_eq_true_eq]; omega
        have hcp : (0xC0 + c / 64 - 0xC0) * 64 + (0x80 + c % 64 - 0x80) = c := by
          omega
        simp only [hv, if_true, hcp]
      rw [hd]
    · rcases Nat.lt_or_ge c 0x10000 with h3 | h3
      · have he : utf8EncodeChar c =
            [0xE0 + c / 4096, 0x80 + c / 64 % 64, 0x80 + c % 64] := by
          unfold utf8EncodeChar; rw [if_neg (by omega), if_neg (by omega), if_pos h3]
        rw [he]
        show utf8Decode ((0xE0 + c / 4096) ::
          ((0x80 + c / 64 % 64) :: (0x80 + c % 64) :: X)) = _
        rw [utf8Decode_cons]
        have hd : utf8DecodeChar (0xE0 + c / 4096)
            ((0x80 + c / 64 % 64) :: (0x80 + c % 64) :: X) = some (c, X) := by
          unfold utf8DecodeChar
          rw [if_neg (by omega), if_neg (by omega), if_neg (by omega),
            if_pos (by omega)]
          have hv : (valid3 (0xE0 + c / 4096) (0x80 + c / 64 % 64) &&
              isCont (0x80 + c % 64)) = true := by
            unfold valid3 isCont
            repeat' split
            all_goals simp only [Bool.and_eq_true, decide_eq_true_eq]
            all_goals omega
          have hcp : (0xE0 + c / 4096 - 0xE0) * 4096 +
              (0x80 + c / 64 % 64 - 0x80) * 64 + (0x80 + c % 64 - 0x80) = c := by
            omega
          simp only [hv, if_true, hcp]
        rw [hd]
      · have he : utf8EncodeChar c =
            [0xF0 + c / 262144, 0x80 + c / 4096 % 64, 0x80 + c / 64 % 64,
              0x80 + c % 64] := by
          unfold utf8EncodeChar
          rw [if_neg (by omega), if_neg (by omega), if_neg (by omega)]
        rw [he]
        show utf8Decode ((0xF0 + c / 262144) :: ((0x80 + c / 4096 % 64) ::
          (0x80 + c / 64 % 64) :: (0x80 + c % 64) :: X)) = _
        rw [utf8Decode_cons]
        have hd : utf8DecodeChar (0xF0 + c / 262144)
            ((0x80 + c / 4096 % 64) :: (0x80 + c / 64 % 64) ::
              (0x80 + c % 64) :: X) = some (c, X) := by
          unfold utf8DecodeChar
          rw [if_neg (by omega), if_neg (by omega), if_neg (by omega),
            if_neg (by omega), if_pos (by omega)]
          have hv : (valid4 (0xF0 + c / 262144) (0x80 + c / 4096 % 64) &&
              isCont (0x80 + c / 64 % 64) && isCont (0x80 + c % 64)) = true := by
            unfold valid4 isCont
            repeat' split
            all_goals simp only [Bool.and_eq_true, decide_eq_true_eq]
            all_goals omega
          have hcp : (0xF0 + c / 262144 - 0xF0) * 262144 +
              (0x80 + c / 4096 % 64 - 0x80) * 4096 +
              (0x80 + c / 64 % 64 - 0x80) * 64 + (0x80 + c % 64 - 0x80) = c := by
            omega
          simp only [hv, if_true, hcp]
        rw [hd]

theorem utf8Decode_utf8Encode (cps : List Nat) (h : ∀ c ∈ cps, ValidScalar c) :
    utf8Decode (utf8Encode cps) = some cps := by
  induction cps with
  | nil => rfl
  | cons c rest ih =>
    rw [utf8Encode_cons, utf8Decode_encodeChar c (h c (List.mem_cons_self c rest)),
      ih (fun x hx => h x (List.mem_cons_of_mem _ hx))]
    rfl

/-! ### Exactness of the decoder -/

theorem utf8DecodeChar_exact (b : Nat) (rest : List Nat) (c : Nat)
    (rest' : List Nat) (h : utf8DecodeChar b rest = some (c, rest')) :
    ValidScalar c ∧ b :: rest = utf8EncodeChar c ++ rest' := by
  unfold utf8DecodeChar at h
  split at h
  case isTrue h1 =>
    simp only [Option.some.injEq, Prod.mk.injEq] at h
    obtain ⟨rfl, rfl⟩ := h
    exact ⟨⟨by omega, by omega⟩, by rw [utf8EncodeChar, if_pos h1]; rfl⟩
  case isFalse h1 =>
  split at h
  case isTrue h2 => exact Option.noConfusion h
  case isFalse h2 =>
  split at h
  case isTrue h3 =>
    rcases rest with _ | ⟨b2, rest2⟩
    · exact Option.noConfusion h
    · change (if isCont b2 = true
          then some ((b - 0xC0) * 64 + (b2 - 0x80), rest2) else none) =
          some (c, rest') at h
      split at h
      case isFalse => exact Option.noConfusion h
      case isTrue hc2 =>
        simp only [isCont, Bool.and_eq_true, decide_eq_true_eq] at hc2
        simp only [Option.some.injEq, Prod.mk.injEq] at h
        obtain ⟨rfl, rfl⟩ := h
        refine ⟨⟨by omega, by omega⟩, ?_⟩
        rw [utf8EncodeChar, if_neg (by omega), if_pos (by omega)]
        simp only [List.cons_append, List.nil_append, List.cons.injEq, and_true]
        exact ⟨by omega, by omega⟩
  case isFalse h3 =>
  split at h
  case isTrue h4 =>
    rcases rest with _ | ⟨b2, _ | ⟨b3, rest3⟩⟩
    · exact Option.noConfusion h
    · exact Option.noConfusion h
    · change (if (valid3 b b2 && isCont b3) = true
          then some ((b - 0xE0) * 4096 + (b2 - 0x80) * 64 + (b3 - 0x80), rest3)
          else none) = some (c, rest') at h
      split at h
      case isFalse => exact Option.noConfusion h
      case isTrue hv =>
        rw [Bool.and_eq_true] at hv
        obtain ⟨hval3, hcont3⟩ := hv
        simp only [isCont, Bool.and_eq_true, decide_eq_true_eq] at hcont3
        simp only [Option.some.injEq, Prod.mk.injEq] at h
        obtain ⟨rfl, rfl⟩ := h
        rcases eq_or_ne b 0xE0 with hE0 | hE0
        · rw [valid3, if_pos hE0] at hval3
          simp only [Bool.and_eq_true, decide_eq_true_eq] at hval3
          refine ⟨⟨by omega, by omega⟩, ?_⟩
          rw [utf8EncodeChar, if_neg (by omega), if_neg (by omega), if_pos (by omega)]
          simp only [List.cons_append, List.nil_append, List.cons.injEq, and_true]
          exact ⟨by omega, by omega, by omega⟩
        · rcases eq_or_ne b 0xED with hED | hED
          · rw [valid3, if_neg hE0, if_pos hED] at hval3
            simp only [Bool.and_eq_true, decide_eq_true_eq] at hval3
            refine ⟨⟨by omega, by omega⟩, ?_⟩
            rw [utf8EncodeChar, if_neg (by omega), if_neg (by omega),
              if_pos (by omega)]
            simp only [List.cons_append, List.nil_append, List.cons.injEq, and_true]
            exact ⟨by omega, by omega, by omega⟩
          · rw [valid3, if_neg hE0, if_neg hED] at hval3
            simp only [isCont, Bool.and_eq_true, decide_eq_true_eq] at hval3
            refine ⟨⟨by omega, by omega⟩, ?_⟩
            rw [utf8EncodeChar, if_neg (by omega), if_neg (by omega),
              if_pos (by omega)]
            simp only [List.cons_append, List.nil_append, List.cons.injEq, and_true]
            exact ⟨by omega, by omega, by omega⟩
  case isFalse h4 =>
  split at h
  case isFalse h5 => exact Option.noConfusion h
  case isTrue h5 =>
    rcases rest with _ | ⟨b2, _ | ⟨b3, _ | ⟨b4, rest4⟩⟩⟩
    · exact Option.noConfusion h
    · exact Option.noConfusion h
    · exact Option.noConfusion h
    · change (if (valid4 b b2 && isCont b3 && isCont b4) = true
          then some ((b - 0xF0) * 262144 + (b2 - 0x80) * 4096 +
            (b3 - 0x80) * 64 + (b4 - 0x80), rest4)
          else none) = some (c, rest') at h
      split at h
      case isFalse => exact Option.noConfusion h
      case isTrue hv =>
        rw [Bool.and_eq_true, Bool.and_eq_true] at hv
        obtain ⟨⟨hval4, hcont3⟩, hcont4⟩ := hv
        simp only [isCont, Bool.and_eq_true, decide_eq_true_eq] at hcont3 hcont4
        simp only [Option.some.injEq, Prod.mk.injEq] at h
        obtain ⟨rfl, rfl⟩ := h
        rcases eq_or_ne b 0xF0 with hF0 | hF0
        · rw [valid4, if_pos hF0] at hval4
          simp only [Bool.and_eq_true, decide_eq_true_eq] at hval4
          refine ⟨⟨by omega, by omega⟩, ?_⟩
          rw [utf8EncodeChar, if_neg (by omega), if_neg (by omega), if_neg (by omega)]
          simp only [List.cons_append, List.nil_append, List.cons.injEq, and_true]
          exact ⟨by omega, by omega, by omega, by omega⟩
        · rcases eq_or_ne b 0xF4 with hF4 | hF4
          · rw [valid4, if_neg hF0, if_pos hF4] at hval4
            simp only [Bool.and_eq_true, decide_eq_true_eq] at hval4
            refine ⟨⟨by omega, by omega⟩, ?_⟩
            rw [utf8EncodeChar, if_neg (by omega), if_neg (by omega),
              if_neg (by omega)]
            simp only [List.cons_append, List.nil_append, List.cons.injEq, and_true]
            exact ⟨by omega, by omega, by omega, by omega⟩
          · rw [valid4, if_neg hF0, if_neg hF4] at hval4
            simp only [isCont, Bool.and_eq_true, decide_eq_true_eq] at hval4
            refine ⟨⟨by omega, by omega⟩, ?_⟩
            rw [utf8EncodeChar, if_neg (by omega), if_neg (by omega),
              if_neg (by omega)]
            simp only [List.cons_append, List.nil_append, List.cons.injEq, and_true]
            exact ⟨by omega, by omega, by omega, by omega⟩

/-! ### Inversion and structure of successful decodes -/

theorem utf8Decode_nil_inv (bs : List Nat) (h : utf8Decode bs = some []) :
    bs = [] := by
  cases bs with
  | nil => rfl
  | cons b rest =>
    rw [utf8Decode_cons] at h
    cases hc : utf8DecodeChar b rest with
    | none => rw [hc] at h; exact Option.noConfusion h
    | some p =>
      obtain ⟨c, rest'⟩ := p
      rw [hc] at h
      have h' : (utf8Decode rest').map (fun cs => c :: cs) = some [] := h
      rw [Option.map_eq_some'] at h'
      obtain ⟨cs, _, heq⟩ := h'
      exact List.noConfusion heq

theorem utf8Decode_cons_inv (bs : List Nat) (c : Nat) (cs : List Nat)
    (h : utf8Decode bs = some (c :: cs)) :
    ∃ rest', bs = utf8EncodeChar c ++ rest' ∧ utf8Decode rest' = some cs ∧
      ValidScalar c := by
  cases bs with
  | nil =>
    have h' : some ([] : List Nat) = some (c :: cs) := h
    simp at h'
  | cons b rest =>
    rw [utf8Decode_cons] at h
    cases hc : utf8DecodeChar b rest with
    | none => rw [hc] at h; exact Option.noConfusion h
    | some p =>
      obtain ⟨c0, rest'⟩ := p
      rw [hc] at h
      have h' : (utf8Decode rest').map (fun cs => c0 :: cs) = some (c :: cs) := h
      rw [Option.map_eq_some'] at h'
      obtain ⟨cs0, hdec, heq⟩ := h'
      have hcc : c0 = c ∧ cs0 = cs := by
        injection heq with h1 h2; exact ⟨h1, h2⟩
      obtain ⟨rfl, rfl⟩ := hcc
      have hx := utf8DecodeChar_exact b rest c0 rest' hc
      exact ⟨rest', hx.2, hdec, hx.1⟩

theorem utf8Decode_exact (cs : List Nat) : ∀ bs, utf8Decode bs = some cs →
    bs = utf8Encode cs ∧ ∀ c ∈ cs, ValidScalar c := by
  induction cs with
  | nil =>
    intro bs h
    rw [utf8Decode_nil_inv bs h]
    exact ⟨rfl, by simp⟩
  | cons c cs ih =>
    intro bs h
    obtain ⟨rest', hbs, hdec, hval⟩ := utf8Decode_cons_inv bs c cs h
    obtain ⟨hrest, hvals⟩ := ih rest' hdec
    subst hbs hrest
    refine ⟨by rw [utf8Encode_cons], ?_⟩
    intro x hx
    rcases List.mem_cons.mp hx with rfl | hx
    · exact hval
    · exact hvals x hx

/-! ### Continuation bytes and character boundaries -/

theorem utf8EncodeChar_length_pos (c : Nat) : 0 < (utf8EncodeChar c).length := by
  unfold utf8EncodeChar
  repeat' split
  all_goals simp

theorem utf8EncodeChar_tail_cont (c : Nat) (hc : ValidScalar c) :
    ∀ x ∈ (utf8EncodeChar c).tail, isCont x = true := by
  obtain ⟨h1, h2⟩ := hc
  intro x hx
  unfold utf8EncodeChar at hx
  repeat' split at hx
  all_goals simp at hx
  all_goals simp only [isCont, Bool.and_eq_true, decide_eq_true_eq]
  all_goals omega

theorem utf8DecodeChar_cont (x : Nat) (rest : List Nat) (h : isCont x = true) :
    utf8DecodeChar x rest = none := by
  simp only [isCont, Bool.and_eq_true, decide_eq_true_eq] at h
  unfold utf8DecodeChar
  rw [if_neg (by omega), if_pos (by omega)]

theorem utf8Decode_cont (x : Nat) (rest : List Nat) (h : isCont x = true) :
    utf8Decode (x :: rest) = none := by
  rw [utf8Decode_cons, utf8DecodeChar_cont x rest h]

theorem utf8Decode_drop_of_some (cs : List Nat) : ∀ bs, utf8Decode bs = some cs →
    ∀ p : Nat, (utf8Decode (bs.drop p)).isSome = true ∨
      ∃ x, (bs.drop p).head? = some x ∧ isCont x = true := by
  induction cs with
  | nil =>
    intro bs h p
    rw [utf8Decode_nil_inv bs h]
    left
    simp [utf8Decode, utf8DecodeAux]
  | cons c cs ih =>
    intro bs h p
    obtain ⟨rest', rfl, hdec, hval⟩ := utf8Decode_cons_inv bs c cs h
    rcases Nat.eq_zero_or_pos p with rfl | hp
    · left; rw [List.drop_zero, h]; rfl
    · rcases Nat.lt_or_ge p (utf8EncodeChar c).length with hpm | hpm
      · right
        rw [List.drop_append_eq_append_drop]
        obtain ⟨b0, tail, he⟩ : ∃ b0 tail, utf8EncodeChar c = b0 :: tail := by
          cases hee : utf8EncodeChar c with
          | nil =>
            have := utf8EncodeChar_length_pos c
            rw [hee] at this
            simp at this
          | cons b0 tail => exact ⟨b0, tail, rfl⟩
        obtain ⟨p', rfl⟩ : ∃ p', p = p' + 1 := ⟨p - 1, by omega⟩
        rw [he]
        have hlt : p' < tail.length := by
          rw [he] at hpm; simp at hpm; omega
        show ∃ x, ((tail.drop p') ++ _).head? = some x ∧ isCont x = true
        cases hdp : tail.drop p' with
        | nil =>
          have := List.length_drop p' tail
          rw [hdp] at this
          simp at this
          omega
        | cons y ys =>
          refine ⟨y, by simp, ?_⟩
          apply utf8EncodeChar_tail_cont c hval
          rw [he]
          show y ∈ tail
          have : y ∈ tail.drop p' := by rw [hdp]; exact List.mem_cons_self y ys
          exact List.mem_of_mem_drop this
      · have hdrop : (utf8EncodeChar c ++ rest').drop p =
            rest'.drop (p - (utf8EncodeChar c).length) := by
          rw [List.drop_append_eq_append_drop, List.drop_eq_nil_of_le (by omega),
            List.nil_append]
        rw [hdrop]
        exact ih rest' hdec _

theorem utf8Decode_take_encodeChar (c : Nat) (hc : ValidScalar c) (k : Nat)
    (hk1 : 1 ≤ k) (hk2 : k < (utf8EncodeChar c).length) :
    utf8Decode ((utf8EncodeChar c).take k) = none := by
  obtain ⟨h1, h2⟩ := hc
  rcases Nat.lt_or_ge c 0x80 with hr | hr
  · have : utf8EncodeChar c = [c] := by rw [utf8EncodeChar, if_pos hr]
    rw [this] at hk2
    simp at hk2
    omega
  rcases Nat.lt_or_ge c 0x800 with hr2 | hr2
  · have he : utf8EncodeChar c = [0xC0 + c / 64, 0x80 + c % 64] := by
      rw [utf8EncodeChar, if_neg (by omega), if_pos hr2]
    have hk : k = 1 := by rw [he] at hk2; simp at hk2; omega
    rw [he, hk]
    show utf8Decode [0xC0 + c / 64] = none
    have hd : utf8DecodeChar (0xC0 + c / 64) [] = none := by
      unfold utf8DecodeChar
      rw [if_neg (by omega), if_neg (by omega), if_pos (by omega)]
    rw [utf8Decode_cons, hd]
  rcases Nat.lt_or_ge c 0x10000 with hr3 | hr3
  · have he : utf8EncodeChar c =
        [0xE0 + c / 4096, 0x80 + c / 64 % 64, 0x80 + c % 64] := by
      rw [utf8EncodeChar, if_neg (by omega), if_neg (by omega), if_pos hr3]
    have hd0 : ∀ r : List Nat, r.length ≤ 1 →
        utf8DecodeChar (0xE0 + c / 4096) r = none := by
      intro r hlen
      unfold utf8DecodeChar
      rw [if_neg (by omega), if_neg (by omega), if_neg (by omega), if_pos (by omega)]
      match r, hlen with
      | [], _ => rfl
      | [x], _ => rfl
    have hk : k = 1 ∨ k = 2 := by rw [he] at hk2; simp at hk2; omega
    rcases hk with rfl | rfl
    · rw [he]
      show utf8Decode [0xE0 + c / 4096] = none
      rw [utf8Decode_cons, hd0 [] (by simp)]
    · rw [he]
      show utf8Decode [0xE0 + c / 4096, 0x80 + c / 64 % 64] = none
      rw [utf8Decode_cons, hd0 [0x80 + c / 64 % 64] (by simp)]
  · have he : utf8EncodeChar c =
        [0xF0 + c / 262144, 0x80 + c / 4096 % 64, 0x80 + c / 64 % 64,
          0x80 + c % 64] := by
      rw [utf8EncodeChar, if_neg (by omega), if_neg (by omega), if_neg (by omega)]
    have hd0 : ∀ r : List Nat, r.length ≤ 2 →
        utf8DecodeChar (0xF0 + c / 262144) r = none := by
      intro r hlen
      unfold utf8DecodeChar
      rw [if_neg (by omega), if_neg (by omega), if_neg (by omega), if_neg (by omega),
        if_pos (by omega)]
      match r, hlen with
      | [], _ => rfl
      | [x], _ => rfl
      | [x, y], _ => rfl
    have hk : k = 1 ∨ k = 2 ∨ k = 3 := by rw [he] at hk2; simp at hk2; omega
    rcases hk with rfl | rfl | rfl
    · rw [he]
      show utf8Decode [0xF0 + c / 262144] = none
      rw [utf8Decode_cons, hd0 [] (by simp)]
    · rw [he]
      show utf8Decode [0xF0 + c / 262144, 0x80 + c / 4096 % 64] = none
      rw [utf8Decode_cons, hd0 [0x80 + c / 4096 % 64] (by simp)]
    · rw [he]
      show utf8Decode [0xF0 + c / 262144, 0x80 + c / 4096 % 64,
        0x80 + c / 64 % 64] = none
      rw [utf8Decode_cons, hd0 [0x80 + c / 4096 % 64, 0x80 + c / 64 % 64] (by simp)]

theorem utf8Decode_take_drop (cs : List Nat) : ∀ (bs : List Nat) (k : Nat),
    utf8Decode bs = some cs → (utf8Decode (bs.take k)).isSome = true →
    (utf8Decode (bs.drop k)).isSome = true := by
  induction cs with
  | nil =>
    intro bs k h _
    rw [utf8Decode_nil_inv bs h]
    simp [utf8Decode, utf8DecodeAux]
  | cons c cs ih =>
    intro bs k h htake
    obtain ⟨rest', rfl, hdec, hval⟩ := utf8Decode_cons_inv bs c cs h
    rcases Nat.eq_zero_or_pos k with rfl | hk
    · rw [List.drop_zero, h]; rfl
    rcases Nat.lt_or_ge k (utf8EncodeChar c).length with hkm | hkm
    · exfalso
      have htk : (utf8EncodeChar c ++ rest').take k = (utf8EncodeChar c).take k := by
        rw [List.take_append_eq_append_take,
          Nat.sub_eq_zero_of_le (by omega), List.take_zero, List.append_nil]
      rw [htk, utf8Decode_take_encodeChar c hval k hk hkm] at htake
      simp at htake
    · have htk : (utf8EncodeChar c ++ rest').take k =
          utf8EncodeChar c ++ rest'.take (k - (utf8EncodeChar c).length) := by
        rw [List.take_append_eq_append_take, List.take_of_length_le hkm]
      have hdrop : (utf8EncodeChar c ++ rest').drop k =
          rest'.drop (k - (utf8EncodeChar c).length) := by
        rw [List.drop_append_eq_append_drop, List.drop_eq_nil_of_le (by omega),
          List.nil_append]
      rw [htk, utf8Decode_encodeChar c hval] at htake
      rw [hdrop]
      apply ih rest' _ hdec
      cases hti : utf8Decode (rest'.take (k - (utf8EncodeChar c).length)) with
      | none => rw [hti] at htake; simp at htake
      | some d => simp

/-! ### The backoff loop -/

theorem backoffAux_spec (tb : List Nat) (s : Int) (n : Nat) :
    ∀ e e' c, backoffAux tb s n e = some (e', c) →
      utf8Decode (pySlice tb s e') = some c ∧ e - n ≤ e' ∧ e' < e := by
  induction n with
  | zero => intro e e' c h; simp [backoffAux] at h
  | succ k ih =>
    intro e e' c h
    rw [backoffAux] at h
    cases hd : utf8Decode (pySlice tb s (e - 1)) with
    | some d =>
      rw [hd] at h
      simp only [Option.some.injEq, Prod.mk.injEq] at h
      refine ⟨?_, by omega, by omega⟩
      rw [← h.1, hd, h.2]
    | none =>
      rw [hd] at h
      have := ih (e - 1) e' c h
      exact ⟨this.1, by omega, by omega⟩

theorem backoff_spec (tb : List Nat) (s e e' : Int) (c : List Nat)
    (h : backoff tb s e = some (e', c)) :
    s ≤ e' ∧ e' < e ∧ utf8Decode (pySlice tb s e') = some c := by
  unfold backoff at h
  rcases Nat.eq_zero_or_pos (e - s).toNat with h0 | h0
  · rw [h0] at h; simp [backoffAux] at h
  · have := backoffAux_spec tb s (e - s).toNat e e' c h
    exact ⟨by omega, by omega, this.1⟩

theorem backoff_isSome (tb : List Nat) (s maxB : Int) (h : 1 ≤ maxB) :
    backoff tb s (s + maxB) ≠ none := by
  unfold backoff
  suffices H : ∀ n : Nat, ∀ e : Int, e = s + (n + 1 : Nat) →
      backoffAux tb s (n + 1) e ≠ none by
    have hk : ∃ k, (s + maxB - s).toNat = k + 1 := ⟨maxB.toNat - 1, by omega⟩
    obtain ⟨k, hk⟩ := hk
    rw [hk]
    exact H k (s + maxB) (by omega)
  intro n
  induction n with
  | zero =>
    intro e he
    have h1 : e - 1 = s := by push_cast at he; omega
    rw [backoffAux, h1, pySlice_self]
    have hnil : utf8Decode ([] : List Nat) = some [] := rfl
    rw [hnil]
    exact Option.some_ne_none _
  | succ k ih =>
    intro e he
    rw [backoffAux]
    cases hd : utf8Decode (pySlice tb s (e - 1)) with
    | some c => simp
    | none =>
      exact ih (e - 1) (by push_cast at he ⊢; omega)

/-! ### Structure of the main loop -/

theorem chunkLoopRec_guard_false (tb : List Nat) (maxB ov : Int) (s : Int)
    (acc : List ChunkRec) (h : ¬ s < (tb.length : Int)) (fuel : Nat) :
    chunkLoopRec tb maxB ov fuel s acc = some acc.reverse := by
  cases fuel with
  | zero => rw [chunkLoopRec, if_neg h]
  | succ f => rw [chunkLoopRec, if_neg h]

theorem chunkLoopRec_append (tb : List Nat) (maxB ov : Int) (fuel : Nat) :
    ∀ (s : Int) (acc : List ChunkRec),
      chunkLoopRec tb maxB ov fuel s acc =
        (chunkLoopRec tb maxB ov fuel s []).map (fun out => acc.reverse ++ out) := by
  induction fuel with
  | zero =>
    intro s acc
    rw [chunkLoopRec, chunkLoopRec]
    split
    · rfl
    · simp
  | succ f ih =>
    intro s acc
    rw [chunkLoopRec, chunkLoopRec]
    split
    · split
      · conv_lhs => rw [ih]
        conv_rhs => rw [ih]
        cases chunkLoopRec tb maxB ov f (s + maxB - ov) [] with
        | none => rfl
        | some out => simp
      · split
        · conv_lhs => rw [ih]
          conv_rhs => rw [ih]
          rename_i p heq2
          cases chunkLoopRec tb maxB ov f (p.1 - ov) [] with
          | none => rfl
          | some out => simp
        · conv_lhs => rw [ih]
    · simp

theorem chunkLoopRec_mono (tb : List Nat) (maxB ov : Int) (f : Nat) :
    ∀ (g : Nat) (s : Int) (acc : List ChunkRec) (out : List ChunkRec), f ≤ g →
      chunkLoopRec tb maxB ov f s acc = some out →
      chunkLoopRec tb maxB ov g s acc = some out := by
  induction f with
  | zero =>
    intro g s acc out _ h
    rw [chunkLoopRec] at h
    split at h
    · exact Option.noConfusion h
    · rw [chunkLoopRec_guard_false tb maxB ov s acc (by assumption)]
      exact h
  | succ f ih =>
    intro g s acc out hle h
    obtain ⟨g', rfl⟩ : ∃ g', g = g' + 1 := ⟨g - 1, by omega⟩
    rw [chunkLoopRec] at h
    rw [chunkLoopRec]
    split at h
    · rw [if_pos (by assumption)]
      cases hd : utf8Decode (pySlice tb s (s + maxB)) with
      | some c =>
        rw [hd] at h
        exact ih g' _ _ _ (by omega) h
      | none =>
        rw [hd] at h
        cases hb : backoff tb s (s + maxB) with
        | some p =>
          rw [hb] at h
          exact ih g' _ _ _ (by omega) h
        | none =>
          rw [hb] at h
          exact ih g' _ _ _ (by omega) h
    · rw [if_neg (by assumption)]
      exact h

theorem chunkLoopRec_recs (tb : List Nat) (maxB ov : Int) (hmax : 0 < maxB)
    (fuel : Nat) :
    ∀ (s : Int) (acc out : List ChunkRec), (∀ r ∈ acc, RecOK tb maxB r) →
      chunkLoopRec tb maxB ov fuel s acc = some out →
      ∀ r ∈ out, RecOK tb maxB r := by
  induction fuel with
  | zero =>
    intro s acc out hacc h
    rw [chunkLoopRec] at h
    split at h
    · exact Option.noConfusion h
    · obtain rfl : acc.reverse = out := by injection h
      intro r hr
      exact hacc r (List.mem_reverse.mp hr)
  | succ f ih =>
    intro s acc out hacc h
    rw [chunkLoopRec] at h
    split at h
    · cases hd : utf8Decode (pySlice tb s (s + maxB)) with
      | some c =>
        rw [hd] at h
        refine ih _ _ _ ?_ h
        intro r hr
        rcases List.mem_cons.mp hr with rfl | hr
        · exact ⟨rfl, hd, by show s ≤ s + maxB; omega,
            by show s + maxB ≤ s + maxB; omega⟩
        · exact hacc r hr
      | none =>
        rw [hd] at h
        cases hb : backoff tb s (s + maxB) with
        | some p =>
          rw [hb] at h
          obtain ⟨hse, hee, hdec⟩ := backoff_spec tb s (s + maxB) p.1 p.2 hb
          refine ih _ _ _ ?_ h
          intro r hr
          rcases List.mem_cons.mp hr with rfl | hr
          · exact ⟨rfl, hdec, hse, by show p.1 ≤ s + maxB; omega⟩
          · exact hacc r hr
        | none =>
          rw [hb] at h
          exact ih _ _ _ hacc h
    · obtain rfl : acc.reverse = out := by injection h
      intro r hr
      exact hacc r (List.mem_reverse.mp hr)

theorem chunkLoopRec_head (tb : List Nat) (maxB ov : Int) (hmax : 0 < maxB)
    (fuel : Nat) (s : Int) (r : ChunkRec) (rest : List ChunkRec)
    (h : chunkLoopRec tb maxB ov fuel s [] = some (r :: rest)) : r.s = s := by
  cases fuel with
  | zero =>
    rw [chunkLoopRec] at h
    split at h
    · exact Option.noConfusion h
    · simp at h
  | succ f =>
    rw [chunkLoopRec] at h
    split at h
    · cases hd : utf8Decode (pySlice tb s (s + maxB)) with
      | some c =>
        rw [hd] at h
        have h' : chunkLoopRec tb maxB ov f (s + maxB - ov)
            [{ s := s, e := s + maxB, bytes := pySlice tb s (s + maxB), cps := c }] =
            some (r :: rest) := h
        rw [chunkLoopRec_append] at h'
        cases ho : chunkLoopRec tb maxB ov f (s + maxB - ov) [] with
        | none => rw [ho] at h'; exact Option.noConfusion h'
        | some out =>
          rw [ho] at h'
          simp only [Option.map_some', List.reverse_cons, List.reverse_nil,
            List.nil_append, List.singleton_append, Option.some.injEq] at h'
          injection h' with h1 h2
          rw [← h1]
      | none =>
        rw [hd] at h
        cases hb : backoff tb s (s + maxB) with
        | some p =>
          rw [hb] at h
          have h' : chunkLoopRec tb maxB ov f (p.1 - ov)
              [{ s := s, e := p.1, bytes := pySlice tb s p.1, cps := p.2 }] =
              some (r :: rest) := h
          rw [chunkLoopRec_append] at h'
          cases ho : chunkLoopRec tb maxB ov f (p.1 - ov) [] with
          | none => rw [ho] at h'; exact Option.noConfusion h'
          | some out =>
            rw [ho] at h'
            simp only [Option.map_some', List.reverse_cons, List.reverse_nil,
              List.nil_append, List.singleton_append, Option.some.injEq] at h'
            injection h' with h1 h2
            rw [← h1]
        | none => exact absurd hb (backoff_isSome tb s maxB (by omega))
    · simp at h

theorem chunkLoopRec_chain (tb : List Nat) (maxB ov : Int) (hmax : 0 < maxB)
    (fuel : Nat) :
    ∀ (s : Int) (out : List ChunkRec),
      chunkLoopRec tb maxB ov fuel s [] = some out → Chained ov out := by
  induction fuel with
  | zero =>
    intro s out h
    rw [chunkLoopRec] at h
    split at h
    · exact Option.noConfusion h
    · obtain rfl : ([] : List ChunkRec) = out := by injection h
      trivial
  | succ f ih =>
    intro s out h
    rw [chunkLoopRec] at h
    split at h
    · cases hd : utf8Decode (pySlice tb s (s + maxB)) with
      | some c =>
        rw [hd] at h
        have h' : chunkLoopRec tb maxB ov f (s + maxB - ov)
            [{ s := s, e := s + maxB, bytes := pySlice tb s (s + maxB), cps := c }] =
            some out := h
        rw [chunkLoopRec_append] at h'
        cases ho : chunkLoopRec tb maxB ov f (s + maxB - ov) [] with
        | none => rw [ho] at h'; exact Option.noConfusion h'
        | some out' =>
          rw [ho] at h'
          simp only [Option.map_some', List.reverse_cons, List.reverse_nil,
            List.nil_append, List.singleton_append, Option.some.injEq] at h'
          subst h'
          cases out' with
          | nil => trivial
          | cons r2 rest2 =>
            exact ⟨by rw [chunkLoopRec_head tb maxB ov hmax f _ r2 rest2 ho],
              ih _ _ ho⟩
      | none =>
        rw [hd] at h
        cases hb : backoff tb s (s + maxB) with
        | some p =>
          rw [hb] at h
          have h' : chunkLoopRec tb maxB ov f (p.1 - ov)
              [{ s := s, e := p.1, bytes := pySlice tb s p.1, cps := p.2 }] =
              some out := h
          rw [chunkLoopRec_append] at h'
          cases ho : chunkLoopRec tb maxB ov f (p.1 - ov) [] with
          | none => rw [ho] at h'; exact Option.noConfusion h'
          | some out' =>
            rw [ho] at h'
            simp only [Option.map_some', List.reverse_cons, List.reverse_nil,
              List.nil_append, List.singleton_append, Option.some.injEq] at h'
            subst h'
            cases out' with
            | nil => trivial
            | cons r2 rest2 =>
              exact ⟨by rw [chunkLoopRec_head tb maxB ov hmax f _ r2 rest2 ho],
                ih _ _ ho⟩
        | none => exact absurd hb (backoff_isSome tb s maxB (by omega))
    · obtain rfl : ([] : List ChunkRec) = out := by injection h
      trivial

/-! ### ASCII runs of the loop -/

theorem chunkJoin_cons (d : Nat) (c : List Nat) (cs : List (List Nat))
    (h : cs ≠ []) : chunkJoin d (c :: cs) = c.take d ++ chunkJoin d cs := by
  cases cs with
  | nil => exact absurd rfl h
  | cons c2 rest => rfl

theorem clampIdx_as_int (len : Nat) (i : Int) :
    (clampIdx len i : Int) =
      if i < 0 then (if i + len < 0 then 0 else i + len)
      else (if (len : Int) < i then (len : Int) else i) := by
  unfold clampIdx
  split_ifs <;> omega

theorem pySlice_length_le (l : List Nat) (a b : Int) (hab : a ≤ b) :
    (pySlice l a b).length ≤ (b - a).toNat := by
  rw [pySlice_length]
  have ha := clampIdx_as_int l.length a
  have hb := clampIdx_as_int l.length b
  rcases lt_or_ge a 0 with h1 | h1
  · rcases lt_or_ge (a + (l.length : Int)) 0 with h2 | h2
    · rw [if_pos h1, if_pos h2] at ha
      rcases lt_or_ge b 0 with h3 | h3
      · rcases lt_or_ge (b + (l.length : Int)) 0 with h4 | h4
        · rw [if_pos h3, if_pos h4] at hb
          omega
        · rw [if_pos h3, if_neg (by omega)] at hb
          omega
      · rcases lt_or_ge ((l.length : Int)) b with h4 | h4
        · rw [if_neg (by omega), if_pos h4] at hb
          omega
        · rw [if_neg (by omega), if_neg (by omega)] at hb
          omega
    · rw [if_pos h1, if_neg (by omega)] at ha
      rcases lt_or_ge b 0 with h3 | h3
      · rcases lt_or_ge (b + (l.length : Int)) 0 with h4 | h4
        · rw [if_pos h3, if_pos h4] at hb
          omega
        · rw [if_pos h3, if_neg (by omega)] at hb
          omega
      · rcases lt_or_ge ((l.length : Int)) b with h4 | h4
        · rw [if_neg (by omega), if_pos h4] at hb
          omega
        · rw [if_neg (by omega), if_neg (by omega)] at hb
          omega
  · rcases lt_or_ge ((l.length : Int)) a with h2 | h2
    · rw [if_neg (by omega), if_pos h2] at ha
      rcases lt_or_ge b 0 with h3 | h3
      · rcases lt_or_ge (b + (l.length : Int)) 0 with h4 | h4
        · rw [if_pos h3, if_pos h4] at hb
          omega
        · rw [if_pos h3, if_neg (by omega)] at hb
          omega
      · rcases lt_or_ge ((l.length : Int)) b with h4 | h4
        · rw [if_neg (by omega), if_pos h4] at hb
          omega
        · rw [if_neg (by omega), if_neg (by omega)] at hb
          omega
    · rw [if_neg (by omega), if_neg (by omega)] at ha
      rcases lt_or_ge b 0 with h3 | h3
      · rcases lt_or_ge (b + (l.length : Int)) 0 with h4 | h4
        · rw [if_pos h3, if_pos h4] at hb
          omega
        · rw [if_pos h3, if_neg (by omega)] at hb
          omega
      · rcases lt_or_ge ((l.length : Int)) b with h4 | h4
        · rw [if_neg (by omega), if_pos h4] at hb
          omega
        · rw [if_neg (by omega), if_neg (by omega)] at hb
          omega

theorem pySlice_subset (l : List Nat) (a b : Int) (x : Nat)
    (hx : x ∈ pySlice l a b) : x ∈ l := by
  unfold pySlice at hx
  exact List.mem_of_mem_take (List.mem_of_mem_drop hx)

theorem utf8Decode_pySlice_ascii (l : List Nat) (hascii : ∀ x ∈ l, x < 0x80)
    (a b : Int) : utf8Decode (pySlice l a b) = some (pySlice l a b) :=
  utf8Decode_ascii _ (fun x hx => hascii x (pySlice_subset l a b x hx))

theorem pySlice_ne_nil (l : List Nat) (a b : Int) (h0 : 0 ≤ a)
    (h1 : a < (l.length : Int)) (h2 : a < b) : pySlice l a b ≠ [] := by
  intro hnil
  have hl := pySlice_length l a b
  rw [hnil] at hl
  simp only [List.length_nil] at hl
  rw [clampIdx_of_nonneg_le l.length a h0 (by omega)] at hl
  rcases le_or_lt b (l.length : Int) with hb | hb
  · rw [clampIdx_of_nonneg_le l.length b (by omega) hb] at hl
    omega
  · rw [clampIdx_of_ge l.length b (by omega)] at hl
    omega

theorem chunkLoopRec_ascii (tb : List Nat) (hascii : ∀ x ∈ tb, x < 0x80)
    (maxB ov : Int) (hmax : 0 < maxB) (hov : 0 ≤ ov) (hlt : ov < maxB) :
    ∀ (fuel : Nat) (s : Int), 0 ≤ s → s < (tb.length : Int) →
      ∀ out, chunkLoopRec tb maxB ov fuel s [] = some out →
        out ≠ [] ∧ (∀ r ∈ out, r.cps ≠ []) ∧
          chunkJoin (maxB - ov).toNat (out.map ChunkRec.cps) = tb.drop s.toNat := by
  intro fuel
  induction fuel with
  | zero =>
    intro s hs0 hslen out h
    rw [chunkLoopRec, if_pos hslen] at h
    exact Option.noConfusion h
  | succ f ih =>
    intro s hs0 hslen out h
    have hslice := utf8Decode_pySlice_ascii tb hascii s (s + maxB)
    rw [chunkLoopRec, if_pos hslen, hslice] at h
    have h' : chunkLoopRec tb maxB ov f (s + maxB - ov)
        [{ s := s, e := s + maxB, bytes := pySlice tb s (s + maxB), cps := pySlice tb s (s + maxB) }] =
        some out := h
    rw [chunkLoopRec_append] at h'
    cases ho : chunkLoopRec tb maxB ov f (s + maxB - ov) [] with
    | none => rw [ho] at h'; exact Option.noConfusion h'
    | some out' =>
      rw [ho] at h'
      simp only [Option.map_some', List.reverse_cons, List.reverse_nil,
        List.nil_append, List.singleton_append, Option.some.injEq] at h'
      subst h'
      have hnn : pySlice tb s (s + maxB) ≠ [] :=
        pySlice_ne_nil tb s (s + maxB) hs0 hslen (by omega)
      have hsl : pySlice tb s (s + maxB) =
          (tb.drop s.toNat).take ((s + maxB).toNat - s.toNat) :=
        pySlice_of_nonneg tb s (s + maxB) hs0 (by omega)
      rcases lt_or_ge (s + maxB - ov) (tb.length : Int) with hs' | hs'
      · obtain ⟨hne', hcps', hjoin'⟩ :=
          ih (s + maxB - ov) (by omega) hs' out' ho
        refine ⟨by simp, ?_, ?_⟩
        · intro r hr
          rcases List.mem_cons.mp hr with rfl | hr
          · exact hnn
          · exact hcps' r hr
        · rw [List.map_cons,
            chunkJoin_cons _ _ _ (by simp [List.map_eq_nil_iff]; exact hne')]
          rw [hjoin']
          show (pySlice tb s (s + maxB)).take (maxB - ov).toNat ++ _ = _
          rw [hsl, List.take_take]
          have h1 : min (maxB - ov).toNat ((s + maxB).toNat - s.toNat) =
              (maxB - ov).toNat := by omega
          rw [h1]
          have h2 : (s + maxB - ov).toNat = s.toNat + (maxB - ov).toNat := by
            omega
          rw [h2, ← List.drop_drop]
          exact List.take_append_drop _ _
      · have hout' : out' = [] := by
          have := chunkLoopRec_guard_false tb maxB ov (s + maxB - ov) []
            (by omega) f
          rw [this] at ho
          injection ho with ho
          rw [← ho]
          rfl
        subst hout'
        refine ⟨by simp, ?_, ?_⟩
        · intro r hr
          rcases List.mem_cons.mp hr with rfl | hr
          · exact hnn
          · simp at hr
        · show chunkJoin (maxB - ov).toNat [pySlice tb s (s + maxB)] = _
          show pySlice tb s (s + maxB) = _
          rw [hsl]
          apply List.take_of_length_le
          simp only [List.length_drop]
          omega

/-! ### Non-termination on invalid and multi-byte inputs -/

theorem chunkLoopRec_no_advance (tb : List Nat) (hascii : ∀ x ∈ tb, x < 0x80)
    (hne : 0 < tb.length) (maxB ov : Int) (hle : maxB ≤ ov) :
    ∀ (fuel : Nat) (s : Int), s ≤ 0 → ∀ acc,
      chunkLoopRec tb maxB ov fuel s acc = none := by
  intro fuel
  induction fuel with
  | zero =>
    intro s hs acc
    rw [chunkLoopRec, if_pos (by omega)]
  | succ f ih =>
    intro s hs acc
    rw [chunkLoopRec, if_pos (by omega),
      utf8Decode_pySlice_ascii tb hascii s (s + maxB)]
    exact ih (s + maxB - ov) (by omega) _

theorem chunkLoopRec_emoji_cycle :
    ∀ (fuel : Nat) (acc : List ChunkRec),
      chunkLoopRec [240, 159, 152, 128, 240, 159, 152, 128] 7 2 fuel 0 acc = none ∧
      chunkLoopRec [240, 159, 152, 128, 240, 159, 152, 128] 7 2 fuel 2 acc = none := by
  intro fuel
  induction fuel with
  | zero =>
    intro acc
    constructor
    · rw [chunkLoopRec, if_pos (by decide)]
    · rw [chunkLoopRec, if_pos (by decide)]
  | succ f ih =>
    intro acc
    constructor
    · rw [chunkLoopRec, if_pos (by decide)]
      have hd : utf8Decode
          (pySlice [240, 159, 152, 128, 240, 159, 152, 128] 0 (0 + 7)) = none := by
        decide
      have hb : backoff [240, 159, 152, 128, 240, 159, 152, 128] 0 (0 + 7) =
          some (4, [128512]) := by decide
      rw [hd, hb]
      exact (ih _).2
    · rw [chunkLoopRec, if_pos (by decide)]
      have hd : utf8Decode
          (pySlice [240, 159, 152, 128, 240, 159, 152, 128] 2 (2 + 7)) = none := by
        decide
      have hb : backoff [240, 159, 152, 128, 240, 159, 152, 128] 2 (2 + 7) =
          some (2, []) := by decide
      rw [hd, hb]
      exact (ih _).1

/-! ### The claims -/

/-- Claim C1: the spec requires `chunk("hello", 100, 100)` and
`chunk("hello", 100, 150)` to raise `ConfigurationError` before any
processing.  The source has no parameter validation at all (no
`ConfigurationError` exists in the repository); on both inputs the loop
never advances (`start = end - overlap_bytes` does not increase), so the
call never returns for any number of iterations.  This theorem exhibits
the divergence: the modelled call returns `none` (loop still running) for
every fuel. -/
theorem chunk_c1_invalid_config_diverges :
    ∀ fuel : Nat,
      chunk_text_simple [104, 101, 108, 108, 111] 100 100 fuel = none ∧
      chunk_text_simple [104, 101, 108, 108, 111] 100 150 fuel = none := by
  intro fuel
  have he : utf8Encode [104, 101, 108, 108, 111] = [104, 101, 108, 108, 111] := by
    decide
  constructor
  · show (chunkRuns [104, 101, 108, 108, 111] 100 100 fuel).map _ = none
    rw [chunkRuns, he,
      chunkLoopRec_no_advance [104, 101, 108, 108, 111] (by decide) (by decide)
        100 100 (by decide) fuel 0 (by decide) []]
    rfl
  · show (chunkRuns [104, 101, 108, 108, 111] 100 150 fuel).map _ = none
    rw [chunkRuns, he,
      chunkLoopRec_no_advance [104, 101, 108, 108, 111] (by decide) (by decide)
        100 150 (by decide) fuel 0 (by decide) []]
    rfl

/-- Claim C2: the spec requires termination for all `0 < overlap_bytes <
max_bytes` within `ceil(len/ (max-overlap)) + 1` iterations.  The code
violates this: on two 4-byte emoji (8 bytes) with `max_bytes = 7`,
`overlap_bytes = 2`, the UTF-8 backoff moves `end` to 4 and the overlap
step moves `start` to 2, the middle of a character; the next iteration
emits an empty chunk and `start` returns to 0 — an infinite cycle.  The
modelled call returns `none` for every fuel. -/
theorem chunk_c2_termination_violated :
    ∀ fuel : Nat, chunk_text_simple [128512, 128512] 7 2 fuel = none := by
  intro fuel
  have he : utf8Encode [128512, 128512] =
      [240, 159, 152, 128, 240, 159, 152, 128] := by decide
  show (chunkRuns [128512, 128512] 7 2 fuel).map _ = none
  rw [chunkRuns, he, (chunkLoopRec_emoji_cycle fuel []).1]
  rfl

/-- Claim C7: on the empty string the function returns an empty sequence,
for every parameter pair (including `chunk("", 1024, 100)`), and already
at fuel 0, since the loop guard fails immediately. -/
theorem chunk_c7_empty_input (maxB ov : Int) (fuel : Nat) :
    chunk_text_simple [] maxB ov fuel = some [] := by
  show (chunkRuns [] maxB ov fuel).map _ = some []
  rw [chunkRuns]
  have he : utf8Encode [] = [] := rfl
  rw [he, chunkLoopRec_guard_false [] maxB ov 0 [] (by simp) fuel]
  rfl

/-- Claim C9: the returned chunk sequence is a function of
`(text, max_bytes, overlap_bytes)` alone: any two runs that finish
(regardless of the fuel given to the loop model) return the same list.
Side-effect freedom holds by construction of the embedding: the function
reads nothing but its arguments. -/
theorem chunk_c9_deterministic (text : List Nat) (maxB ov : Int)
    (f1 f2 : Nat) (o1 o2 : List (List Nat))
    (h1 : chunk_text_simple text maxB ov f1 = some o1)
    (h2 : chunk_text_simple text maxB ov f2 = some o2) : o1 = o2 := by
  unfold chunk_text_simple at h1 h2
  rw [Option.map_eq_some'] at h1 h2
  obtain ⟨r1, hr1, rfl⟩ := h1
  obtain ⟨r2, hr2, rfl⟩ := h2
  suffices hrr : r1 = r2 by rw [hrr]
  unfold chunkRuns at hr1 hr2
  rcases le_total f1 f2 with hf | hf
  · have := chunkLoopRec_mono (utf8Encode text) maxB ov f1 f2 0 [] r1 hf hr1
    rw [this] at hr2
    injection hr2
  · have := chunkLoopRec_mono (utf8Encode text) maxB ov f2 f1 0 [] r2 hf hr2
    rw [this] at hr1
    injection hr1 with hr1
    rw [hr1]

/-- Witness for C9 at a concrete input and two different fuels. -/
theorem chunk_c9_deterministic_witness :
    chunk_text_simple [104, 105] 2 1 5 = some [[104, 105], [105]] ∧
    chunk_text_simple [104, 105] 2 1 9 = some [[104, 105], [105]] ∧
    ([[104, 105], [105]] : List (List Nat)) = [[104, 105], [105]] :=
  ⟨by decide, by decide,
    chunk_c9_deterministic [104, 105] 2 1 5 9 [[104, 105], [105]]
      [[104, 105], [105]] (by decide) (by decide)⟩

/-- Claim C10: with `max_bytes ≥ 1` the skip-chunk `else` branch of the
backoff loop is unreachable: the loop enters with `end = start +
max_bytes > start`, and decrementing `end` down to `start` yields the
empty slice, which always decodes, so the loop always exits via `break`. -/
theorem chunk_c10_skip_unreachable (text : List Nat) (maxB : Int)
    (hmax : 1 ≤ maxB) (s : Int) :
    backoff (utf8Encode text) s (s + maxB) ≠ none :=
  backoff_isSome (utf8Encode text) s maxB hmax

/-- Witness for C10 at a concrete input. -/
theorem chunk_c10_skip_unreachable_witness :
    (1 : Int) ≤ 1 ∧ backoff (utf8Encode [104]) 0 (0 + 1) ≠ none :=
  ⟨by decide, chunk_c10_skip_unreachable [104] 1 (by decide) 0⟩

/-! ### Boundary claims -/

/-- Claim C3, counterexample: on `"aa😀bb"` with `max_bytes = 5`,
`overlap_bytes = 1`, the run terminates but emits empty chunks whose
recorded offsets (5, 4, 3) lie strictly inside the 4-byte emoji
(bytes 2..5), so the claim that no chunk boundary falls inside a
multi-byte code point fails as stated. -/
theorem chunk_c3_counterexample :
    chunkRuns [97, 97, 128512, 98, 98] 5 1 20 = some
      [⟨0, 2, [97, 97], [97, 97]⟩,
       ⟨1, 6, [97, 240, 159, 152, 128], [97, 128512]⟩,
       ⟨5, 5, [], []⟩, ⟨4, 4, [], []⟩, ⟨3, 3, [], []⟩,
       ⟨2, 7, [240, 159, 152, 128, 98], [128512, 98]⟩,
       ⟨6, 11, [98, 98], [98, 98]⟩] ∧
    ¬ (∀ r ∈ [(⟨0, 2, [97, 97], [97, 97]⟩ : ChunkRec),
       ⟨1, 6, [97, 240, 159, 152, 128], [97, 128512]⟩,
       ⟨5, 5, [], []⟩, ⟨4, 4, [], []⟩, ⟨3, 3, [], []⟩,
       ⟨2, 7, [240, 159, 152, 128, 98], [128512, 98]⟩,
       ⟨6, 11, [98, 98], [98, 98]⟩],
        (utf8Decode r.bytes).isSome = true ∧
        Utf8Boundary (utf8Encode [97, 97, 128512, 98, 98])
          (clampIdx (utf8Encode [97, 97, 128512, 98, 98]).length r.s) ∧
        Utf8Boundary (utf8Encode [97, 97, 128512, 98, 98])
          (clampIdx (utf8Encode [97, 97, 128512, 98, 98]).length r.s +
            r.bytes.length)) := by
  constructor
  · decide
  · decide

/-- Claim C3, amended: every chunk decodes as valid UTF-8 (the decode the
loop performed), and every chunk with non-empty bytes starts and ends on
a UTF-8 sequence boundary of the encoded input; only empty chunks can
carry offsets inside a multi-byte code point. -/
theorem chunk_c3_amended (text : List Nat) (maxB ov : Int) (fuel : Nat)
    (out : List ChunkRec) (hval : ∀ c ∈ text, ValidScalar c) (hmax : 0 < maxB)
    (h : chunkRuns text maxB ov fuel = some out) :
    ∀ r ∈ out, utf8Decode r.bytes = some r.cps ∧
      (r.bytes ≠ [] →
        Utf8Boundary (utf8Encode text) (clampIdx (utf8Encode text).length r.s) ∧
        Utf8Boundary (utf8Encode text)
          (clampIdx (utf8Encode text).length r.s + r.bytes.length)) := by
  intro r hr
  have htbdec : utf8Decode (utf8Encode text) = some text :=
    utf8Decode_utf8Encode text hval
  obtain ⟨hbytes, hdec, hse, hemax⟩ :=
    chunkLoopRec_recs (utf8Encode text) maxB ov hmax fuel 0 [] out
      (by simp) h r hr
  refine ⟨hdec, fun hne => ?_⟩
  set tb := utf8Encode text with htb
  set p := clampIdx tb.length r.s with hp
  have hslice : r.bytes = (tb.drop p).take (clampIdx tb.length r.e - p) := by
    rw [hbytes]
    unfold pySlice
    rw [List.drop_take]
  have hstart : Utf8Boundary tb p := by
    rcases utf8Decode_drop_of_some text tb htbdec p with hb | ⟨x, hhead, hcont⟩
    · exact hb
    · exfalso
      cases hdp : tb.drop p with
      | nil =>
        rw [hdp] at hslice
        simp at hslice
        exact hne hslice
      | cons y ys =>
        rw [hdp] at hhead hslice
        simp only [List.head?_cons, Option.some.injEq] at hhead
        subst hhead
        cases hk : clampIdx tb.length r.e - p with
        | zero =>
          rw [hk] at hslice
          simp at hslice
          exact hne hslice
        | succ k =>
          rw [hk, List.take_succ_cons] at hslice
          rw [hslice, utf8Decode_cont y _ hcont] at hdec
          exact Option.noConfusion hdec
  obtain ⟨S, hS⟩ : ∃ S, utf8Decode (tb.drop p) = some S := by
    unfold Utf8Boundary at hstart
    cases hd : utf8Decode (tb.drop p) with
    | none => rw [hd] at hstart; simp at hstart
    | some S => exact ⟨S, rfl⟩
  have hlen : r.bytes = (tb.drop p).take r.bytes.length := by
    rcases le_or_lt (clampIdx tb.length r.e - p) (tb.drop p).length with hc | hc
    · have hbl : r.bytes.length = clampIdx tb.length r.e - p := by
        rw [hslice, List.length_take]
        omega
      rw [hbl]
      exact hslice
    · rw [List.take_of_length_le (by omega)] at hslice
      rw [hslice, List.take_length]
  have hend : (utf8Decode ((tb.drop p).drop r.bytes.length)).isSome = true := by
    apply utf8Decode_take_drop S (tb.drop p) r.bytes.length hS
    rw [← hlen, hdec]
    rfl
  refine ⟨hstart, ?_⟩
  unfold Utf8Boundary
  rw [List.drop_drop] at hend
  exact hend

/-- Witness for the amended C3 on `"a😀"` with `max_bytes = 6`,
`overlap_bytes = 1`, instantiated at the single chunk of that run. -/
theorem chunk_c3_amended_witness :
    utf8Decode [97, 240, 159, 152, 128] = some [97, 128512] ∧
    ([97, 240, 159, 152, 128] ≠ ([] : List Nat) →
      Utf8Boundary (utf8Encode [97, 128512])
        (clampIdx (utf8Encode [97, 128512]).length 0) ∧
      Utf8Boundary (utf8Encode [97, 128512])
        (clampIdx (utf8Encode [97, 128512]).length 0 + 5)) :=
  chunk_c3_amended [97, 128512] 6 1 5
    [⟨0, 6, [97, 240, 159, 152, 128], [97, 128512]⟩]
    (by decide) (by decide) (by decide)
    ⟨0, 6, [97, 240, 159, 152, 128], [97, 128512]⟩ (by decide)

/-- Claim C4, counterexample: on `"abc"` with `max_bytes = 3`,
`overlap_bytes = 2`, the chunks are `["abc", "bc", "c"]`; trimming the
trailing 2 bytes of every chunk but the last and concatenating yields
`"ac"`, not `"abc"`.  The P1 reconstruction fails as stated. -/
theorem chunk_c4_counterexample :
    chunk_text_simple [97, 98, 99] 3 2 10 =
      some [[97, 98, 99], [98, 99], [99]] ∧
    prefixJoin 2 [[97, 98, 99], [98, 99], [99]] ≠ [97, 98, 99] := by
  constructor
  · decide
  · decide

/-- Claim C4, amended: for non-empty ASCII input (no UTF-8 backoff), the
text is reconstructed by keeping the first `max_bytes - overlap_bytes`
bytes of every chunk except the last, which is kept whole. -/
theorem chunk_c4_amended (text : List Nat) (maxB ov : Int) (fuel : Nat)
    (out : List (List Nat)) (hascii : ∀ c ∈ text, c < 0x80) (hne : text ≠ [])
    (hmax : 0 < maxB) (hov : 0 ≤ ov) (hlt : ov < maxB)
    (h : chunk_text_simple text maxB ov fuel = some out) :
    chunkJoin (maxB - ov).toNat out = text := by
  unfold chunk_text_simple at h
  rw [Option.map_eq_some'] at h
  obtain ⟨runs, hruns, rfl⟩ := h
  unfold chunkRuns at hruns
  rw [utf8Encode_ascii text hascii] at hruns
  have hlen : 0 < text.length := List.length_pos.mpr hne
  obtain ⟨_, _, hjoin⟩ := chunkLoopRec_ascii text hascii maxB ov hmax hov hlt
    fuel 0 (by omega) (by exact_mod_cast hlen) runs hruns
  rw [hjoin]
  simp

/-- Witness for the amended C4 on `"abcde"`, `max_bytes = 3`,
`overlap_bytes = 1`. -/
theorem chunk_c4_amended_witness :
    (∀ c ∈ [97, 98, 99, 100, 101], c < 0x80) ∧
    chunkJoin ((3 : Int) - 1).toNat [[97, 98, 99], [99, 100, 101], [101]] =
      [97, 98, 99, 100, 101] :=
  ⟨by decide, chunk_c4_amended [97, 98, 99, 100, 101] 3 1 10
    [[97, 98, 99], [99, 100, 101], [101]] (by decide) (by decide) (by decide)
    (by decide) (by decide) (by decide)⟩

/-- Claim C5, counterexample: on `"aa😀bb"` with `max_bytes = 5`,
`overlap_bytes = 1`, the returned sequence contains empty strings (three
of them), so "every element is a non-empty string" fails as stated. -/
theorem chunk_c5_counterexample :
    chunk_text_simple [97, 97, 128512, 98, 98] 5 1 20 =
      some [[97, 97], [97, 128512], [], [], [], [128512, 98], [98, 98]] ∧
    ([] : List Nat) ∈
      [[97, 97], [97, 128512], [], [], [], [128512, 98], [98, 98]] := by
  constructor
  · decide
  · decide

/-- Claim C5, amended: the returned sequence is always a finite list, and
for ASCII input (no UTF-8 backoff) every element is non-empty. -/
theorem chunk_c5_amended (text : List Nat) (maxB ov : Int) (fuel : Nat)
    (out : List (List Nat)) (hascii : ∀ c ∈ text, c < 0x80)
    (hmax : 0 < maxB) (hov : 0 ≤ ov) (hlt : ov < maxB)
    (h : chunk_text_simple text maxB ov fuel = some out) :
    ∀ c ∈ out, c ≠ [] := by
  unfold chunk_text_simple at h
  rw [Option.map_eq_some'] at h
  obtain ⟨runs, hruns, rfl⟩ := h
  unfold chunkRuns at hruns
  rw [utf8Encode_ascii text hascii] at hruns
  rcases eq_or_ne text [] with rfl | hne
  · rw [chunkLoopRec_guard_false [] maxB ov 0 [] (by simp) fuel] at hruns
    injection hruns with hruns
    rw [← hruns]
    simp
  · have hlen : 0 < text.length := List.length_pos.mpr hne
    obtain ⟨_, hcps, _⟩ := chunkLoopRec_ascii text hascii maxB ov hmax hov hlt
      fuel 0 (by omega) (by exact_mod_cast hlen) runs hruns
    intro c hc
    rw [List.mem_map] at hc
    obtain ⟨r, hrmem, rfl⟩ := hc
    exact hcps r hrmem

/-- Witness for the amended C5 on `"hi"`, `max_bytes = 2`,
`overlap_bytes = 0`. -/
theorem chunk_c5_amended_witness :
    (∀ c ∈ [104, 105], c < 0x80) ∧ ∀ c ∈ [[104, 105]], c ≠ ([] : List Nat) :=
  ⟨by decide, chunk_c5_amended [104, 105] 2 0 10 [[104, 105]] (by decide)
    (by decide) (by decide) (by decide) (by decide)⟩

/-- Claim C6: every chunk (not only the non-final ones) has UTF-8-encoded
byte length at most `max_bytes`: each chunk decodes from the slice
`text_bytes[start:end]` with `end ≤ start + max_bytes`, and decoding is
exact, so re-encoding the chunk gives back at most `max_bytes` bytes. -/
theorem chunk_c6_size_bound (text : List Nat) (maxB ov : Int) (fuel : Nat)
    (out : List (List Nat)) (hmax : 0 < maxB) (hov : 0 ≤ ov) (hlt : ov < maxB)
    (h : chunk_text_simple text maxB ov fuel = some out) :
    ∀ c ∈ out, ((utf8Encode c).length : Int) ≤ maxB := by
  unfold chunk_text_simple at h
  rw [Option.map_eq_some'] at h
  obtain ⟨runs, hruns, rfl⟩ := h
  intro c hc
  rw [List.mem_map] at hc
  obtain ⟨r, hrmem, rfl⟩ := hc
  obtain ⟨hbytes, hdec, hse, hemax⟩ :=
    chunkLoopRec_recs (utf8Encode text) maxB ov hmax fuel 0 [] runs
      (by simp) hruns r hrmem
  have hexact := utf8Decode_exact r.cps r.bytes hdec
  rw [← hexact.1, hbytes]
  have hb := pySlice_length_le (utf8Encode text) r.s r.e hse
  omega

/-- Witness for C6 on `"hij"`, `max_bytes = 2`, `overlap_bytes = 1`,
instantiated at the first chunk of that run. -/
theorem chunk_c6_size_bound_witness :
    ((utf8Encode [104, 105]).length : Int) ≤ 2 :=
  chunk_c6_size_bound [104, 105, 106] 2 1 10 [[104, 105], [105, 106], [106]]
    (by decide) (by decide) (by decide) (by decide) [104, 105] (by decide)

/-- Claim C8, counterexample: on `"abcdefghij"` with `max_bytes = 6`,
`overlap_bytes = 4`, chunk 4 covers bytes `[6, 10)` (one past its last
included byte is 10), but chunk 5 starts at byte 8, not `10 - 4 = 6`:
when the window `start + max_bytes` overruns the end of the text, the
code advances from the un-clamped `end`, not from one past the last
included byte. -/
theorem chunk_c8_counterexample :
    chunkRuns [97, 98, 99, 100, 101, 102, 103, 104, 105, 106] 6 4 20 = some
      [⟨0, 6, [97, 98, 99, 100, 101, 102], [97, 98, 99, 100, 101, 102]⟩,
       ⟨2, 8, [99, 100, 101, 102, 103, 104], [99, 100, 101, 102, 103, 104]⟩,
       ⟨4, 10, [101, 102, 103, 104, 105, 106], [101, 102, 103, 104, 105, 106]⟩,
       ⟨6, 12, [103, 104, 105, 106], [103, 104, 105, 106]⟩,
       ⟨8, 14, [105, 106], [105, 106]⟩] ∧
    ¬ ChainedEndOff 4
      [⟨0, 6, [97, 98, 99, 100, 101, 102], [97, 98, 99, 100, 101, 102]⟩,
       ⟨2, 8, [99, 100, 101, 102, 103, 104], [99, 100, 101, 102, 103, 104]⟩,
       ⟨4, 10, [101, 102, 103, 104, 105, 106], [101, 102, 103, 104, 105, 106]⟩,
       ⟨6, 12, [103, 104, 105, 106], [103, 104, 105, 106]⟩,
       ⟨8, 14, [105, 106], [105, 106]⟩] := by
  constructor
  · decide
  · decide

/-- Claim C8, amended: consecutive chunk records satisfy
`start_next = end - overlap_bytes` where `end` is the loop's internal end
value for the previous chunk; `end` coincides with one past the last
included byte whenever the window stayed inside the text
(`0 ≤ start` and `end ≤ len`), but can exceed it when the window
overruns the end of the input. -/
theorem chunk_c8_amended (text : List Nat) (maxB ov : Int) (fuel : Nat)
    (out : List ChunkRec) (hmax : 0 < maxB)
    (h : chunkRuns text maxB ov fuel = some out) :
    Chained ov out ∧ ∀ r ∈ out, 0 ≤ r.s →
      r.e ≤ ((utf8Encode text).length : Int) →
      r.e = r.s + (r.bytes.length : Int) := by
  constructor
  · exact chunkLoopRec_chain (utf8Encode text) maxB ov hmax fuel 0 out h
  · intro r hr h0 hle
    obtain ⟨hbytes, _, hse, _⟩ :=
      chunkLoopRec_recs (utf8Encode text) maxB ov hmax fuel 0 [] out
        (by simp) h r hr
    rw [hbytes, pySlice_of_nonneg _ _ _ h0 hse, List.length_take,
      List.length_drop]
    have hmin : min (r.e.toNat - r.s.toNat)
        ((utf8Encode text).length - r.s.toNat) = r.e.toNat - r.s.toNat := by
      omega
    rw [hmin]
    omega

/-- Witness for the amended C8 on `"abcd"`, `max_bytes = 3`,
`overlap_bytes = 2`. -/
theorem chunk_c8_amended_witness :
    Chained 2
      [⟨0, 3, [97, 98, 99], [97, 98, 99]⟩, ⟨1, 4, [98, 99, 100], [98, 99, 100]⟩,
       ⟨2, 5, [99, 100], [99, 100]⟩, ⟨3, 6, [100], [100]⟩] ∧
    ∀ r ∈ [(⟨0, 3, [97, 98, 99], [97, 98, 99]⟩ : ChunkRec),
       ⟨1, 4, [98, 99, 100], [98, 99, 100]⟩,
       ⟨2, 5, [99, 100], [99, 100]⟩, ⟨3, 6, [100], [100]⟩], 0 ≤ r.s →
      r.e ≤ ((utf8Encode [97, 98, 99, 100]).length : Int) →
      r.e = r.s + (r.bytes.length : Int) :=
  chunk_c8_amended [97, 98, 99, 100] 3 2 10
    [⟨0, 3, [97, 98, 99], [97, 98, 99]⟩, ⟨1, 4, [98, 99, 100], [98, 99, 100]⟩,
     ⟨2, 5, [99, 100], [99, 100]⟩, ⟨3, 6, [100], [100]⟩]
    (by decide) (by decide)
